import Mathlib

/-!
Verification of the JSON storage engine of the afex-travel-marketplace API
(`src/api/src/storage/index.js`): the `Mutex` class and the `Collection`
class (`load`, `save`, `findByIndex`, `findAll`, `findById`, `create`,
`update`, `delete`, `upsert`), shallowly embedded as pure state-passing
functions.

Modelling conventions:
* A JS record is an association list of string keys to primitive JSON
  values (`Obj`).  The engine's records are flat JSON objects; the indexed
  fields used by the application (emails, roles, statuses, ids) are all
  primitives, where JS `===` agrees with structural equality.
* `obj[k] = undefined` (a key assigned the value `undefined`) is collapsed
  to key absence: every read (`item[field]`, `===` comparisons,
  `Map` keys via the `!== undefined` guard in `_buildIndexes`) and
  `JSON.stringify` (which omits `undefined`-valued keys) treat the two
  identically.  Accordingly a JS value-or-undefined is `Option Val`.
* Each call to `new Date().toISOString()` in the source is a separate
  clock read and becomes a separate oracle parameter, as does the
  `nanoid(12)` call.
* Fallible filesystem calls inside `save` are driven by a `SaveFault`
  oracle naming which call (if any) fails; `load` failures are file
  absence (ENOENT) and unparseable content.
* File modification times are drawn from a strictly increasing counter
  (`clock`) stored alongside the collection state.
-/

/-- Primitive JSON values (the value domain of the engine's records;
JS `===` on these is structural equality). -/
inductive Val where
  | vstr : String → Val
  | vnum : Int → Val
  | vbool : Bool → Val
  | vnull : Val
  deriving DecidableEq, Repr

/-- A JS record object: association list from field names to values.
Objects constructed by the engine are duplicate-free; `get` reads the
first binding and `set` replaces the first binding in place, matching
JS property read/assignment. -/
abbrev Obj := List (String × Val)

/-- JS property read `o[k]`: `none` models `undefined`. -/
def Obj.get : Obj → String → Option Val
  | [], _ => none
  | kv :: rest, k => if kv.1 = k then some kv.2 else Obj.get rest k

/-- JS property assignment `o[k] = v` (object literal / spread step):
replaces the value at an existing key keeping its position, else appends. -/
def Obj.set : Obj → String → Val → Obj
  | [], k, v => [(k, v)]
  | kv :: rest, k, v => if kv.1 = k then (k, v) :: rest else kv :: Obj.set rest k v

/-- Removal of a key (the observable effect of assigning `undefined`,
see the module comment). -/
def Obj.eraseKey : Obj → String → Obj
  | [], _ => []
  | kv :: rest, k => if kv.1 = k then Obj.eraseKey rest k else kv :: Obj.eraseKey rest k

/-- Assignment of a JS value-or-undefined: `o[k] = v?` where `v?` may be
`undefined`. -/
def Obj.setOpt (o : Obj) (k : String) : Option Val → Obj
  | some v => o.set k v
  | none => o.eraseKey k

/-- JS object spread `{...a, ...b}`: copy `a`, then assign each binding
of `b` in order. -/
def Obj.merge (a b : Obj) : Obj :=
  b.foldl (fun acc kv => acc.set kv.1 kv.2) a

@[simp]
theorem Obj.get_nil (k : String) : Obj.get [] k = none := rfl

@[simp]
theorem Obj.get_set_self (o : Obj) (k : String) (v : Val) :
    (o.set k v).get k = some v := by
  induction o with
  | nil => simp [Obj.set, Obj.get]
  | cons kv rest ih =>
      by_cases h : kv.1 = k
      · simp [Obj.set, Obj.get, h]
      · simp [Obj.set, Obj.get, h, ih]

theorem Obj.get_set_ne (o : Obj) (k k' : String) (v : Val) (h : k' ≠ k) :
    (o.set k v).get k' = o.get k' := by
  induction o with
  | nil => simp [Obj.set, Obj.get, Ne.symm h]
  | cons kv rest ih =>
      by_cases hk : kv.1 = k
      · subst hk
        simp [Obj.set, Obj.get, Ne.symm h]
      · by_cases hk' : kv.1 = k'
        · simp [Obj.set, Obj.get, hk, hk', h]
        · simp [Obj.set, Obj.get, hk, hk', ih]

@[simp]
theorem Obj.get_eraseKey_self (o : Obj) (k : String) :
    (o.eraseKey k).get k = none := by
  induction o with
  | nil => simp [Obj.eraseKey]
  | cons kv rest ih =>
      by_cases h : kv.1 = k
      · simp [Obj.eraseKey, h, ih]
      · simp [Obj.eraseKey, Obj.get, h, ih]

theorem Obj.get_eraseKey_ne (o : Obj) (k k' : String) (h : k' ≠ k) :
    (o.eraseKey k).get k' = o.get k' := by
  induction o with
  | nil => simp [Obj.eraseKey]
  | cons kv rest ih =>
      by_cases hk : kv.1 = k
      · subst hk
        simp [Obj.eraseKey, Obj.get, Ne.symm h, ih]
      · by_cases hk' : kv.1 = k'
        · simp [Obj.eraseKey, Obj.get, hk, hk', h]
        · simp [Obj.eraseKey, Obj.get, hk, hk', ih]

@[simp]
theorem Obj.get_setOpt_self (o : Obj) (k : String) (v? : Option Val) :
    (o.setOpt k v?).get k = v? := by
  cases v? with
  | none => simp [Obj.setOpt]
  | some v => simp [Obj.setOpt]

theorem Obj.get_setOpt_ne (o : Obj) (k k' : String) (v? : Option Val) (h : k' ≠ k) :
    (o.setOpt k v?).get k' = o.get k' := by
  cases v? with
  | none => simp [Obj.setOpt, Obj.get_eraseKey_ne o k k' h]
  | some v => simp [Obj.setOpt, Obj.get_set_ne o k k' v h]

theorem Obj.get_merge_of_not_mem (a b : Obj) (k : String) (h : b.get k = none) :
    (a.merge b).get k = a.get k := by
  induction b generalizing a with
  | nil => simp [Obj.merge]
  | cons kv rest ih =>
      by_cases hk : kv.1 = k
      · simp [Obj.get, hk] at h
      · simp [Obj.get, hk] at h
        have := ih (a.set kv.1 kv.2) h
        simp [Obj.merge, List.foldl] at this ⊢
        rw [this, Obj.get_set_ne a kv.1 k kv.2 (fun he => hk he.symm)]

/-- A JS `Map` from index values to buckets of records (one per indexed
field, `this.indexes[field]`). -/
abbrev Bucketmap := List (Val × List Obj)

/-- The `this.indexes` object: field name to bucket map. -/
abbrev Indexes := List (String × Bucketmap)

instance : DecidableEq Bucketmap :=
  inferInstanceAs (DecidableEq (List (Val × List Obj)))

instance : DecidableEq Indexes :=
  inferInstanceAs (DecidableEq (List (String × Bucketmap)))

/-- Generic lookup in an association list (JS `Map.get` / property read). -/
def AList.getA {α β : Type} [DecidableEq α] : List (α × β) → α → Option β
  | [], _ => none
  | kv :: rest, k => if kv.1 = k then some kv.2 else AList.getA rest k

/-- Generic insertion (JS `Map.set` / property assignment): replaces the
value at an existing key in place, else appends. -/
def AList.setA {α β : Type} [DecidableEq α] : List (α × β) → α → β → List (α × β)
  | [], k, v => [(k, v)]
  | kv :: rest, k, v => if kv.1 = k then (k, v) :: rest else kv :: AList.setA rest k v

@[simp]
theorem AList.getA_setA_self {α β : Type} [DecidableEq α]
    (m : List (α × β)) (k : α) (v : β) : AList.getA (AList.setA m k v) k = some v := by
  induction m with
  | nil => simp [AList.setA, AList.getA]
  | cons kv rest ih =>
      by_cases h : kv.1 = k
      · simp [AList.setA, AList.getA, h]
      · simp [AList.setA, AList.getA, h, ih]

theorem AList.getA_setA_ne {α β : Type} [DecidableEq α]
    (m : List (α × β)) (k k' : α) (v : β) (h : k' ≠ k) :
    AList.getA (AList.setA m k v) k' = AList.getA m k' := by
  induction m with
  | nil => simp [AList.setA, AList.getA, Ne.symm h]
  | cons kv rest ih =>
      by_cases hk : kv.1 = k
      · subst hk
        simp [AList.setA, AList.getA, Ne.symm h]
      · by_cases hk' : kv.1 = k'
        · simp [AList.setA, AList.getA, hk, hk', h]
        · simp [AList.setA, AList.getA, hk, hk', ih]

/-- One step of the inner loop of `_buildIndexes` (lines 79-87): insert
`item` into the bucket for `item[field]`, skipping an `undefined` value. -/
def indexAddField (idx : Indexes) (item : Obj) (field : String) : Indexes :=
  match Obj.get item field with
  | none => idx
  | some v =>
      let m := (AList.getA idx field).getD []
      let bucket := (AList.getA m v).getD []
      AList.setA idx field (AList.setA m v (bucket ++ [item]))

/-- The inner `for (const field of this.indexFields)` loop of
`_buildIndexes` for one record. -/
def indexAddItem (idx : Indexes) (fields : List String) (item : Obj) : Indexes :=
  fields.foldl (fun acc f => indexAddField acc item f) idx

/-- `_buildIndexes(data)` (lines 72-89): reset every indexed field to an
empty map, then insert every record of `data` in order. -/
def buildIndexes (fields : List String) (data : List Obj) : Indexes :=
  data.foldl (fun acc item => indexAddItem acc fields item)
    (fields.foldl (fun acc f => AList.setA acc f []) [])

/-- `this.indexes[field]?.get(value) || []` (line 182): a missing field
map and a missing bucket both yield the empty sequence (a missing field
map behaves as an empty map). -/
def indexLookup (idx : Indexes) (f : String) (v : Val) : List Obj :=
  (AList.getA ((AList.getA idx f).getD []) v).getD []

/-- Errors surfaced by the engine: a JSON parse failure on `load`, or an
injected I/O failure inside `save`. -/
inductive SErr where
  | parseError
  | ioError
  deriving DecidableEq, Repr

deriving instance DecidableEq for Except

/-- What the collection's file parses as: a JSON array of records, or
unparseable content. -/
inductive FileJson where
  | arr : List Obj → FileJson
  | corrupt : FileJson
  deriving DecidableEq, Repr

/-- The on-disk file at the collection's canonical path: parsed content
plus modification time (`mtimeMs`). -/
structure FileData where
  content : FileJson
  mtime : Nat
  deriving DecidableEq, Repr

/-- State of one `Collection` instance together with its canonical file.
`file = none` models ENOENT at the canonical path.  `clock` is the
filesystem time counter: every write stamps the file with the current
`clock` and increments it, so modification times are strictly increasing
(this process being the sole writer). -/
structure Coll where
  indexFields : List String
  file : Option FileData
  cache : Option (List Obj)
  lastModified : Option Nat
  indexes : Indexes
  clock : Nat
  deriving Repr

/-- Which fallible call inside `save` (lines 142-177) fails, if any.
`lockFail` is the advisory `proper-lockfile` acquisition failing (caught,
logged, non-fatal).  `tmpWriteFail` is `fs.writeFile` of the `.tmp`
sibling failing.  `renameFail` is `fs.rename` failing.  `statFail` is
`fs.stat` of the renamed file failing (after the rename and after
`this.cache = data`).  `releaseFail` is the lock `release()` in the
`finally` block failing (after every update has happened). -/
inductive SaveFault where
  | ok
  | lockFail
  | tmpWriteFail
  | renameFail
  | statFail
  | releaseFail
  deriving DecidableEq, Repr

/-- The disk-read branch of `load` (lines 123-128): read and parse the
file, replace the cache, record the modification time, rebuild indexes. -/
def Coll.loadDisk (c : Coll) (fd : FileData) : Except SErr (List Obj) × Coll :=
  match fd.content with
  | FileJson.corrupt => (Except.error SErr.parseError, c)
  | FileJson.arr l =>
      (Except.ok l,
        { c with cache := some l, lastModified := some fd.mtime,
                 indexes := buildIndexes c.indexFields l })

/-- `load()` (lines 113-139).  ENOENT self-heals to the empty collection;
a populated cache whose recorded modification time matches the file's is
returned as-is (defensive copies are identities in the pure model);
otherwise the file is read from disk. -/
def Coll.load (c : Coll) : Except SErr (List Obj) × Coll :=
  match c.file with
  | none =>
      (Except.ok [],
        { c with cache := some [], indexes := buildIndexes c.indexFields [] })
  | some fd =>
      match c.cache with
      | some cached =>
          if c.lastModified = some fd.mtime then (Except.ok cached, c)
          else c.loadDisk fd
      | none => c.loadDisk fd

/-- `save(data)` (lines 142-177), with the failing call (if any) chosen by
`fault`.  On the fault-free path (and under a non-fatal advisory-lock
failure) the canonical file atomically becomes `data`, and cache, recorded
modification time and indexes are updated.  Failures before or at the
rename leave everything untouched; a `fs.stat` failure after the rename
leaves the file replaced and the cache updated, but the recorded
modification time and the indexes stale; a lock-`release()` failure
propagates after every update has already happened. -/
def Coll.save (c : Coll) (data : List Obj) (fault : SaveFault) :
    Except SErr Unit × Coll :=
  match fault with
  | SaveFault.tmpWriteFail => (Except.error SErr.ioError, c)
  | SaveFault.renameFail => (Except.error SErr.ioError, c)
  | SaveFault.statFail =>
      (Except.error SErr.ioError,
        { c with file := some ⟨FileJson.arr data, c.clock⟩, clock := c.clock + 1,
                 cache := some data })
  | SaveFault.releaseFail =>
      (Except.error SErr.ioError,
        { c with file := some ⟨FileJson.arr data, c.clock⟩, clock := c.clock + 1,
                 cache := some data, lastModified := some c.clock,
                 indexes := buildIndexes c.indexFields data })
  | _ =>
      (Except.ok (),
        { c with file := some ⟨FileJson.arr data, c.clock⟩, clock := c.clock + 1,
                 cache := some data, lastModified := some c.clock,
                 indexes := buildIndexes c.indexFields data })


/-- `await` of a loading step: a rejected `load` propagates, a fulfilled
one passes the snapshot and the refreshed state on. -/
def andThen {A : Type} (step : Except SErr (List Obj) × Coll)
    (k : List Obj → Coll → Except SErr A × Coll) : Except SErr A × Coll :=
  match step with
  | (Except.error e, c1) => (Except.error e, c1)
  | (Except.ok data, c1) => k data c1

/-- `await` of a saving step: a rejected `save` propagates, a fulfilled
one returns `r`. -/
def saveThen {A : Type} (step : Except SErr Unit × Coll) (r : A) :
    Except SErr A × Coll :=
  match step with
  | (Except.error e, c2) => (Except.error e, c2)
  | (Except.ok _, c2) => (Except.ok r, c2)

/-- `await` of a nested `create` inside `upsert`: wrap its record in the
optional result type. -/
def mapOk (step : Except SErr Obj × Coll) : Except SErr (Option Obj) × Coll :=
  match step with
  | (Except.error e, c2) => (Except.error e, c2)
  | (Except.ok r, c2) => (Except.ok (some r), c2)

@[simp]
theorem andThen_error {A : Type} (e : SErr) (c1 : Coll)
    (k : List Obj → Coll → Except SErr A × Coll) :
    andThen (Except.error e, c1) k = (Except.error e, c1) := rfl

@[simp]
theorem andThen_ok {A : Type} (data : List Obj) (c1 : Coll)
    (k : List Obj → Coll → Except SErr A × Coll) :
    andThen (Except.ok data, c1) k = k data c1 := rfl

@[simp]
theorem saveThen_error {A : Type} (e : SErr) (c2 : Coll) (r : A) :
    saveThen (Except.error e, c2) r = (Except.error e, c2) := rfl

@[simp]
theorem saveThen_ok {A : Type} (u : Unit) (c2 : Coll) (r : A) :
    saveThen (Except.ok u, c2) r = (Except.ok r, c2) := rfl

@[simp]
theorem mapOk_error (e : SErr) (c2 : Coll) :
    mapOk (Except.error e, c2) = (Except.error e, c2) := rfl

@[simp]
theorem mapOk_ok (r : Obj) (c2 : Coll) :
    mapOk (Except.ok r, c2) = (Except.ok (some r), c2) := rfl

/-- `findByIndex(field, value)` (lines 180-183): refresh via `load`, then
return the bucket (a `load` failure propagates, as `await` rethrows). -/
def Coll.findByIndex (c : Coll) (f : String) (v : Val) :
    Except SErr (List Obj) × Coll :=
  andThen c.load (fun _ c1 => (Except.ok (indexLookup c1.indexes f v), c1))

/-- `findAll()` (lines 186-188). -/
def Coll.findAll (c : Coll) : Except SErr (List Obj) × Coll :=
  c.load

/-- `findById(id)` (lines 190-193): `data.find(item => item.id === id) || null`.
The argument is a JS value-or-undefined, like `item.id` itself. -/
def Coll.findById (c : Coll) (id? : Option Val) : Except SErr (Option Obj) × Coll :=
  andThen c.load (fun data c1 =>
    (Except.ok (data.find? (fun item => decide (item.get "id" = id?))), c1))

/-- `findOne(predicate)` (lines 195-198). -/
def Coll.findOne (c : Coll) (pred : Obj → Bool) : Except SErr (Option Obj) × Coll :=
  andThen c.load (fun data c1 => (Except.ok (data.find? pred), c1))

/-- `findMany(predicate)` (lines 200-203). -/
def Coll.findMany (c : Coll) (pred : Obj → Bool) : Except SErr (List Obj) × Coll :=
  andThen c.load (fun data c1 => (Except.ok (data.filter pred), c1))

/-- The object literal of `create` (lines 207-212):
`{ id: nanoid(12), ...item, created_at: t1, updated_at: t2 }` — note the
caller's fields are spread AFTER the generated id, so a caller-supplied
`id` key overrides it, while the two timestamps come last and cannot be
overridden.  `t1` and `t2` are the two separate `new Date()` reads. -/
def mkCreated (item : Obj) (genId t1 t2 : String) : Obj :=
  ((Obj.merge [("id", Val.vstr genId)] item).set "created_at" (Val.vstr t1)).set
    "updated_at" (Val.vstr t2)

/-- `create(item)` (lines 205-216). -/
def Coll.create (c : Coll) (item : Obj) (genId t1 t2 : String) (fault : SaveFault) :
    Except SErr Obj × Coll :=
  andThen c.load (fun data c1 =>
    saveThen (c1.save (data ++ [mkCreated item genId t1 t2]) fault)
      (mkCreated item genId t1 t2))

/-- The object literal of `update` (lines 224-230):
`{ ...oldItem, ...updates, id: oldItem.id, created_at: oldItem.created_at,
updated_at: t }` — id and creation date forcibly restored from the old
record after the spread. -/
def mkUpdated (oldItem updates : Obj) (t : String) : Obj :=
  (((oldItem.merge updates).setOpt "id" (oldItem.get "id")).setOpt "created_at"
      (oldItem.get "created_at")).set "updated_at" (Val.vstr t)

/-- The body of `update` after `findIndex` (lines 221-233): `null` when
the id was absent, else replace the record in place, save, return it. -/
def updateIdx (c1 : Coll) (data : List Obj) (updates : Obj) (t : String)
    (fault : SaveFault) : Option Nat → Except SErr (Option Obj) × Coll
  | none => (Except.ok none, c1)
  | some i =>
      saveThen (c1.save (data.set i (mkUpdated (data.getD i []) updates t)) fault)
        (some (mkUpdated (data.getD i []) updates t))

@[simp]
theorem updateIdx_none (c1 : Coll) (data : List Obj) (updates : Obj) (t : String)
    (fault : SaveFault) : updateIdx c1 data updates t fault none = (Except.ok none, c1) := rfl

@[simp]
theorem updateIdx_some (c1 : Coll) (data : List Obj) (updates : Obj) (t : String)
    (fault : SaveFault) (i : Nat) :
    updateIdx c1 data updates t fault (some i)
      = saveThen (c1.save (data.set i (mkUpdated (data.getD i []) updates t)) fault)
          (some (mkUpdated (data.getD i []) updates t)) := rfl

/-- `update(id, updates)` (lines 218-234): `data.findIndex(item => item.id === id)`,
then the found/not-found body. -/
def Coll.update (c : Coll) (id? : Option Val) (updates : Obj) (t : String)
    (fault : SaveFault) : Except SErr (Option Obj) × Coll :=
  andThen c.load (fun data c1 =>
    updateIdx c1 data updates t fault
      (data.findIdx? (fun item => decide (item.get "id" = id?))))

/-- The body of `delete` after `findIndex` (lines 239-243): `false` when
the id was absent, else `splice(index, 1)`, save, `true`. -/
def deleteIdx (c1 : Coll) (data : List Obj) (fault : SaveFault) :
    Option Nat → Except SErr Bool × Coll
  | none => (Except.ok false, c1)
  | some i => saveThen (c1.save (data.eraseIdx i) fault) true

@[simp]
theorem deleteIdx_none (c1 : Coll) (data : List Obj) (fault : SaveFault) :
    deleteIdx c1 data fault none = (Except.ok false, c1) := rfl

@[simp]
theorem deleteIdx_some (c1 : Coll) (data : List Obj) (fault : SaveFault) (i : Nat) :
    deleteIdx c1 data fault (some i)
      = saveThen (c1.save (data.eraseIdx i) fault) true := rfl

/-- `delete(id)` (lines 236-244): `data.findIndex(item => item.id === id)`,
then the found/not-found body. -/
def Coll.delete (c : Coll) (id? : Option Val) (fault : SaveFault) :
    Except SErr Bool × Coll :=
  andThen c.load (fun data c1 =>
    deleteIdx c1 data fault (data.findIdx? (fun item => decide (item.get "id" = id?))))

/-- `upsert(predicate, item)` (lines 246-255): update the first record
matched by the predicate (passing its possibly-undefined `id`), else
create.  Oracles cover both branches; only one save happens. -/
def Coll.upsert (c : Coll) (pred : Obj → Bool) (item : Obj)
    (genId t1 t2 t : String) (fault : SaveFault) :
    Except SErr (Option Obj) × Coll :=
  andThen c.load (fun data c1 =>
    match data.find? pred with
    | some existing => c1.update (existing.get "id") item t fault
    | none => mapOk (c1.create item genId t1 t2 fault))

/-- The constructor state (lines 48-61) when no file existed at the
canonical path: `_writeFileSync([])` creates it; cache and recorded
modification time start empty, indexes start as `{}`. -/
def Coll.initFresh (fields : List String) (clk : Nat) : Coll :=
  { indexFields := fields
    file := some ⟨FileJson.arr [], clk⟩
    cache := none
    lastModified := none
    indexes := []
    clock := clk + 1 }

/-- The constructor state when the file already existed: it is left as
found. -/
def Coll.initExisting (fields : List String) (fd : FileData) (clk : Nat) : Coll :=
  { indexFields := fields
    file := some fd
    cache := none
    lastModified := none
    indexes := []
    clock := clk }

/-- Executable well-formedness of a collection state, an invariant of
every state the program can reach: recorded times lie strictly below the
filesystem clock, and a populated cache whose recorded modification time
matches the file's is exactly the parsed file content with indexes built
from it (the sole-writer guarantee that validates the `load` fast path). -/
def wfB (c : Coll) : Bool :=
  (match c.file with
   | some fd => decide (fd.mtime < c.clock)
   | none => true) &&
  (match c.lastModified with
   | some m => decide (m < c.clock)
   | none => true) &&
  (match c.cache, c.file, c.lastModified with
   | some l, some fd, some m =>
       if m = fd.mtime then
         decide (fd.content = FileJson.arr l) &&
         decide (c.indexes = buildIndexes c.indexFields l)
       else true
   | _, _, _ => true)

/-- Well-formed collection states. -/
def WF (c : Coll) : Prop := wfB c = true

instance (c : Coll) : Decidable (WF c) := by
  unfold WF
  infer_instance

/-- The file parses (or is absent): `load` does not raise. -/
def Readable (c : Coll) : Prop :=
  match c.file with
  | some fd => fd.content ≠ FileJson.corrupt
  | none => True

instance (c : Coll) : Decidable (Readable c) := by
  unfold Readable
  exact match c.file with
  | some fd => instDecidableNot
  | none => instDecidableTrue

/-- A fully synchronized state: the cache holds `data`, the file parses to
`data`, and the recorded modification time matches — the steady state after
any successful `load` or `save`. -/
def Synced (c : Coll) (data : List Obj) : Prop :=
  c.cache = some data ∧
  (match c.file with
   | some fd => fd.content = FileJson.arr data ∧ c.lastModified = some fd.mtime
   | none => False)

instance (c : Coll) (data : List Obj) : Decidable (Synced c data) := by
  unfold Synced
  exact match c.file with
  | some fd => instDecidableAnd
  | none => instDecidableAnd


theorem indexLookup_nil (f : String) (v : Val) : indexLookup [] f v = [] := rfl

theorem indexLookup_addField_ne (idx : Indexes) (item : Obj) (g f : String) (v : Val)
    (h : f ≠ g) :
    indexLookup (indexAddField idx item g) f v = indexLookup idx f v := by
  unfold indexAddField
  cases hg : item.get g with
  | none => rfl
  | some w =>
      unfold indexLookup
      rw [AList.getA_setA_ne idx g f _ h]

theorem indexLookup_addField_self (idx : Indexes) (item : Obj) (f : String) (v : Val) :
    indexLookup (indexAddField idx item f) f v
      = indexLookup idx f v ++ (if item.get f = some v then [item] else []) := by
  unfold indexAddField
  cases hg : item.get f with
  | none => simp [hg]
  | some w =>
      unfold indexLookup
      rw [AList.getA_setA_self]
      by_cases hv : w = v
      · subst hv
        simp [hg]
      · rw [Option.getD_some, AList.getA_setA_ne _ w v _ (fun e => hv e.symm)]
        have : ¬ (some w = some v) := by simp [hv]
        simp [hg, this]

theorem indexLookup_addItem_not_mem (fields : List String) (idx : Indexes) (item : Obj)
    (f : String) (v : Val) (h : f ∉ fields) :
    indexLookup (indexAddItem idx fields item) f v = indexLookup idx f v := by
  induction fields generalizing idx with
  | nil => rfl
  | cons g rest ih =>
      have hfg : f ≠ g := fun e => h (e ▸ List.mem_cons_self g rest)
      have hfr : f ∉ rest := fun hr => h (List.mem_cons_of_mem g hr)
      show indexLookup (indexAddItem (indexAddField idx item g) rest item) f v
        = indexLookup idx f v
      rw [ih (indexAddField idx item g) hfr,
        indexLookup_addField_ne idx item g f v hfg]

theorem indexLookup_addItem_mem (fields : List String) (idx : Indexes) (item : Obj)
    (f : String) (v : Val) (hnd : fields.Nodup) (hf : f ∈ fields) :
    indexLookup (indexAddItem idx fields item) f v
      = indexLookup idx f v ++ (if item.get f = some v then [item] else []) := by
  induction fields generalizing idx with
  | nil => cases hf
  | cons g rest ih =>
      rcases List.mem_cons.mp hf with hfg | hfr
      · subst hfg
        have hfr : f ∉ rest := (List.nodup_cons.mp hnd).1
        show indexLookup (indexAddItem (indexAddField idx item f) rest item) f v = _
        rw [indexLookup_addItem_not_mem rest (indexAddField idx item f) item f v hfr,
          indexLookup_addField_self idx item f v]
      · have hfg : f ≠ g := by
          intro e
          subst e
          exact (List.nodup_cons.mp hnd).1 hfr
        show indexLookup (indexAddItem (indexAddField idx item g) rest item) f v = _
        rw [ih (indexAddField idx item g) (List.nodup_cons.mp hnd).2 hfr,
          indexLookup_addField_ne idx item g f v hfg]

theorem indexLookup_initFold (fields : List String) (acc : Indexes) (f : String) (v : Val)
    (h : indexLookup acc f v = []) :
    indexLookup (fields.foldl (fun a g => AList.setA a g []) acc) f v = [] := by
  induction fields generalizing acc with
  | nil => exact h
  | cons g rest ih =>
      show indexLookup (rest.foldl (fun a g => AList.setA a g []) (AList.setA acc g [])) f v
        = []
      apply ih
      by_cases hfg : f = g
      · subst hfg
        unfold indexLookup
        rw [AList.getA_setA_self]
        rfl
      · unfold indexLookup at h ⊢
        rw [AList.getA_setA_ne acc g f _ hfg]
        exact h

theorem indexLookup_foldAdd (data : List Obj) (fields : List String) (acc : Indexes)
    (f : String) (v : Val) (hnd : fields.Nodup) (hf : f ∈ fields) :
    indexLookup (data.foldl (fun a item => indexAddItem a fields item) acc) f v
      = indexLookup acc f v ++ data.filter (fun r => decide (r.get f = some v)) := by
  induction data generalizing acc with
  | nil => simp
  | cons item rest ih =>
      show indexLookup (rest.foldl (fun a item => indexAddItem a fields item)
        (indexAddItem acc fields item)) f v = _
      rw [ih (indexAddItem acc fields item),
        indexLookup_addItem_mem fields acc item f v hnd hf]
      by_cases hp : item.get f = some v
      · simp [List.filter, hp]
      · simp [List.filter, hp]

theorem indexLookup_foldAdd_not_mem (data : List Obj) (fields : List String)
    (acc : Indexes) (f : String) (v : Val) (h : f ∉ fields) :
    indexLookup (data.foldl (fun a item => indexAddItem a fields item) acc) f v
      = indexLookup acc f v := by
  induction data generalizing acc with
  | nil => rfl
  | cons item rest ih =>
      show indexLookup (rest.foldl (fun a item => indexAddItem a fields item)
        (indexAddItem acc fields item)) f v = _
      rw [ih (indexAddItem acc fields item),
        indexLookup_addItem_not_mem fields acc item f v h]

/-- The index bucket for an indexed field is exactly the records whose
field equals the queried value, in array order. -/
theorem indexLookup_buildIndexes_mem (fields : List String) (data : List Obj)
    (f : String) (v : Val) (hnd : fields.Nodup) (hf : f ∈ fields) :
    indexLookup (buildIndexes fields data) f v
      = data.filter (fun r => decide (r.get f = some v)) := by
  unfold buildIndexes
  rw [indexLookup_foldAdd data fields _ f v hnd hf,
    indexLookup_initFold fields [] f v rfl]
  simp

/-- A field that is not configured as an index has no bucket map. -/
theorem indexLookup_buildIndexes_not_mem (fields : List String) (data : List Obj)
    (f : String) (v : Val) (hf : f ∉ fields) :
    indexLookup (buildIndexes fields data) f v = [] := by
  unfold buildIndexes
  rw [indexLookup_foldAdd_not_mem data fields _ f v hf]
  exact indexLookup_initFold fields [] f v rfl

/-- The spec's contract for `load` — "returns a snapshot equal to current
durable file content": read and parse the file directly, bypassing the
cache, with an absent file read as the empty collection. -/
def loadSpec (c : Coll) : Except SErr (List Obj) :=
  match c.file with
  | none => Except.ok []
  | some fd =>
      match fd.content with
      | FileJson.corrupt => Except.error SErr.parseError
      | FileJson.arr l => Except.ok l

theorem wf_iff (c : Coll) : WF c ↔
    ((∀ fd, c.file = some fd → fd.mtime < c.clock) ∧
     (∀ m, c.lastModified = some m → m < c.clock) ∧
     (∀ l fd, c.cache = some l → c.file = some fd → c.lastModified = some fd.mtime →
        fd.content = FileJson.arr l ∧ c.indexes = buildIndexes c.indexFields l)) := by
  unfold WF wfB
  rcases c with ⟨flds, file, cache, lm, idx, clk⟩
  cases file with
  | none =>
      cases cache <;> cases lm <;>
        simp [Bool.and_eq_true, decide_eq_true_iff]
  | some fd =>
      cases cache with
      | none =>
          cases lm <;> simp [Bool.and_eq_true, decide_eq_true_iff]
      | some l =>
          cases lm with
          | none => simp [Bool.and_eq_true, decide_eq_true_iff]
          | some m =>
              by_cases hm : m = fd.mtime
              · subst hm
                simp [Bool.and_eq_true, decide_eq_true_iff]
              · simp [Bool.and_eq_true, decide_eq_true_iff, hm]


/-- The cached fast path and the disk-read path agree: from any
well-formed state, `load` returns exactly what reading and parsing the
file would return. -/
theorem load_fst_eq_loadSpec (c : Coll) (h : WF c) : (c.load).1 = loadSpec c := by
  obtain ⟨-, -, h3⟩ := (wf_iff c).mp h
  rcases c with ⟨flds, file, cache, lm, idx, clk⟩
  cases file with
  | none => rfl
  | some fd =>
      rcases fd with ⟨content, mtime⟩
      cases cache with
      | none => cases content <;> rfl
      | some cached =>
          by_cases hm : lm = some mtime
          · subst hm
            have := (h3 cached ⟨content, mtime⟩ rfl rfl rfl).1
            subst this
            simp [Coll.load, loadSpec]
          · cases content <;> simp [Coll.load, loadSpec, Coll.loadDisk, hm]

theorem load_snd_file (c : Coll) : (c.load).2.file = c.file := by
  rcases c with ⟨flds, file, cache, lm, idx, clk⟩
  cases file with
  | none => rfl
  | some fd =>
      rcases fd with ⟨content, mtime⟩
      cases cache with
      | none => cases content <;> rfl
      | some cached =>
          by_cases hm : lm = some mtime
          · simp [Coll.load, hm]
          · cases content <;> simp [Coll.load, Coll.loadDisk, hm]

theorem load_snd_indexFields (c : Coll) : (c.load).2.indexFields = c.indexFields := by
  rcases c with ⟨flds, file, cache, lm, idx, clk⟩
  cases file with
  | none => rfl
  | some fd =>
      rcases fd with ⟨content, mtime⟩
      cases cache with
      | none => cases content <;> rfl
      | some cached =>
          by_cases hm : lm = some mtime
          · simp [Coll.load, hm]
          · cases content <;> simp [Coll.load, Coll.loadDisk, hm]

theorem load_snd_clock (c : Coll) : (c.load).2.clock = c.clock := by
  rcases c with ⟨flds, file, cache, lm, idx, clk⟩
  cases file with
  | none => rfl
  | some fd =>
      rcases fd with ⟨content, mtime⟩
      cases cache with
      | none => cases content <;> rfl
      | some cached =>
          by_cases hm : lm = some mtime
          · simp [Coll.load, hm]
          · cases content <;> simp [Coll.load, Coll.loadDisk, hm]

/-- After a successful `load`, the cache holds exactly the returned
snapshot. -/
theorem load_ok_cache (c : Coll) (data : List Obj) (c1 : Coll)
    (h : c.load = (Except.ok data, c1)) : c1.cache = some data := by
  rcases c with ⟨flds, file, cache, lm, idx, clk⟩
  cases file with
  | none =>
      cases h
      rfl
  | some fd =>
      rcases fd with ⟨content, mtime⟩
      cases cache with
      | none =>
          cases content with
          | corrupt => cases h
          | arr l =>
              cases h
              rfl
      | some cached =>
          by_cases hm : lm = some mtime
          · simp only [Coll.load, hm, if_pos rfl] at h
            cases h
            rfl
          · simp only [Coll.load, if_neg hm] at h
            cases content with
            | corrupt => cases h
            | arr l =>
                simp only [Coll.loadDisk] at h
                cases h
                rfl

/-- After a successful `load` from a well-formed state, the in-memory
indexes are exactly those built from the returned snapshot. -/
theorem load_ok_indexes (c : Coll) (data : List Obj) (c1 : Coll) (hwf : WF c)
    (h : c.load = (Except.ok data, c1)) :
    c1.indexes = buildIndexes c.indexFields data := by
  obtain ⟨-, -, h3⟩ := (wf_iff c).mp hwf
  rcases c with ⟨flds, file, cache, lm, idx, clk⟩
  cases file with
  | none =>
      cases h
      rfl
  | some fd =>
      rcases fd with ⟨content, mtime⟩
      cases cache with
      | none =>
          cases content with
          | corrupt => cases h
          | arr l =>
              cases h
              rfl
      | some cached =>
          by_cases hm : lm = some mtime
          · subst hm
            obtain ⟨hcont, hidx⟩ := h3 cached ⟨content, mtime⟩ rfl rfl rfl
            simp only [Coll.load, if_pos rfl] at h
            cases h
            exact hidx
          · simp only [Coll.load, if_neg hm] at h
            cases content with
            | corrupt => cases h
            | arr l =>
                simp only [Coll.loadDisk] at h
                cases h
                rfl

/-- `load` preserves well-formedness. -/
theorem load_wf (c : Coll) (h : WF c) : WF (c.load).2 := by
  obtain ⟨h1, h2, h3⟩ := (wf_iff c).mp h
  rcases c with ⟨flds, file, cache, lm, idx, clk⟩
  cases file with
  | none =>
      apply (wf_iff _).mpr
      refine ⟨?_, ?_, ?_⟩
      · intro fd hfd
        cases hfd
      · intro m hm
        exact h2 m hm
      · intro l fd hc hfd hm
        cases hfd
  | some fd =>
      rcases fd with ⟨content, mtime⟩
      cases cache with
      | none =>
          cases content with
          | corrupt => exact h
          | arr l =>
              apply (wf_iff _).mpr
              refine ⟨?_, ?_, ?_⟩
              · intro fd' hfd'
                cases hfd'
                exact h1 _ rfl
              · intro m hm
                cases hm
                exact h1 _ rfl
              · intro l' fd' hc' hfd' hm'
                cases hc'
                cases hfd'
                exact ⟨rfl, rfl⟩
      | some cached =>
          by_cases hm : lm = some mtime
          · simpa [Coll.load, hm] using h
          · cases content with
            | corrupt =>
                simpa [Coll.load, Coll.loadDisk, hm] using h
            | arr l =>
                have : (Coll.load ⟨flds, some ⟨FileJson.arr l, mtime⟩, some cached, lm, idx, clk⟩).2
                    = ⟨flds, some ⟨FileJson.arr l, mtime⟩, some l, some mtime,
                        buildIndexes flds l, clk⟩ := by
                  simp [Coll.load, Coll.loadDisk, hm]
                rw [this]
                apply (wf_iff _).mpr
                refine ⟨?_, ?_, ?_⟩
                · intro fd' hfd'
                  cases hfd'
                  exact h1 _ rfl
                · intro m hm'
                  cases hm'
                  exact h1 _ rfl
                · intro l' fd' hc' hfd' hm'
                  cases hc'
                  cases hfd'
                  exact ⟨rfl, rfl⟩

/-- The fault-free `save` in explicit form: the file atomically becomes
`data` with a fresh modification time, and cache, recorded time and
indexes are updated to match. -/
theorem save_eq_ok (c : Coll) (data : List Obj) :
    c.save data SaveFault.ok
      = (Except.ok (),
          ⟨c.indexFields, some ⟨FileJson.arr data, c.clock⟩, some data,
            some c.clock, buildIndexes c.indexFields data, c.clock + 1⟩) := rfl

theorem save_snd_indexFields (c : Coll) (data : List Obj) (fault : SaveFault) :
    (c.save data fault).2.indexFields = c.indexFields := by
  cases fault <;> rfl

/-- `save` preserves well-formedness under every fault. -/
theorem save_wf (c : Coll) (data : List Obj) (fault : SaveFault) (h : WF c) :
    WF (c.save data fault).2 := by
  obtain ⟨h1, h2, h3⟩ := (wf_iff c).mp h
  cases fault with
  | tmpWriteFail => exact h
  | renameFail => exact h
  | statFail =>
      apply (wf_iff _).mpr
      refine ⟨?_, ?_, ?_⟩
      · intro fd hfd
        cases hfd
        exact Nat.lt_succ_self _
      · intro m hm
        exact Nat.lt_succ_of_lt (h2 m hm)
      · intro l fd hc hfd hm
        cases hfd
        exact absurd (h2 _ hm) (Nat.lt_irrefl _)
  | releaseFail =>
      apply (wf_iff _).mpr
      refine ⟨?_, ?_, ?_⟩
      · intro fd hfd
        cases hfd
        exact Nat.lt_succ_self _
      · intro m hm
        cases hm
        exact Nat.lt_succ_self _
      · intro l fd hc hfd hm
        cases hc
        cases hfd
        exact ⟨rfl, rfl⟩
  | ok =>
      apply (wf_iff _).mpr
      refine ⟨?_, ?_, ?_⟩
      · intro fd hfd
        cases hfd
        exact Nat.lt_succ_self _
      · intro m hm
        cases hm
        exact Nat.lt_succ_self _
      · intro l fd hc hfd hm
        cases hc
        cases hfd
        exact ⟨rfl, rfl⟩
  | lockFail =>
      apply (wf_iff _).mpr
      refine ⟨?_, ?_, ?_⟩
      · intro fd hfd
        cases hfd
        exact Nat.lt_succ_self _
      · intro m hm
        cases hm
        exact Nat.lt_succ_self _
      · intro l fd hc hfd hm
        cases hc
        cases hfd
        exact ⟨rfl, rfl⟩

theorem readable_load (c : Coll) (hr : Readable c) : Readable (c.load).2 := by
  unfold Readable at hr ⊢
  rw [load_snd_file]
  exact hr

theorem readable_save_ok (c : Coll) (data : List Obj) :
    Readable (c.save data SaveFault.ok).2 := by
  unfold Readable
  rw [save_eq_ok]
  exact fun h => FileJson.noConfusion h

/-- From a readable well-formed state, `load` succeeds. -/
theorem load_ok_of_readable (c : Coll) (h : WF c) (hr : Readable c) :
    ∃ data, c.load = (Except.ok data, (c.load).2) := by
  have h1 := load_fst_eq_loadSpec c h
  unfold Readable at hr
  unfold loadSpec at h1
  rcases c with ⟨flds, file, cache, lm, idx, clk⟩
  cases file with
  | none => exact ⟨[], Prod.ext h1 rfl⟩
  | some fd =>
      rcases fd with ⟨content, mtime⟩
      cases content with
      | corrupt => exact absurd rfl hr
      | arr l => exact ⟨l, Prod.ext h1 rfl⟩

/-- From a fully synchronized state, `load` is the identity fast path:
it returns the cached snapshot and changes nothing. -/
theorem load_of_synced (c : Coll) (data : List Obj) (h : Synced c data) :
    c.load = (Except.ok data, c) := by
  obtain ⟨hc, hf⟩ := h
  rcases c with ⟨flds, file, cache, lm, idx, clk⟩
  cases file with
  | none => cases hf
  | some fd =>
      obtain ⟨hcont, hlm⟩ := hf
      rcases fd with ⟨content, mtime⟩
      cases hc
      cases hlm
      simp [Coll.load]

/-- The fault-free `save` leaves the collection synchronized on the new
array. -/
theorem synced_save_ok (c : Coll) (data : List Obj) :
    Synced (c.save data SaveFault.ok).2 data := by
  rw [save_eq_ok]
  exact ⟨rfl, rfl, rfl⟩

theorem readable_save (c : Coll) (data : List Obj) (fault : SaveFault)
    (hr : Readable c) : Readable (c.save data fault).2 := by
  cases fault with
  | tmpWriteFail => exact hr
  | renameFail => exact hr
  | ok => exact fun h => FileJson.noConfusion h
  | lockFail => exact fun h => FileJson.noConfusion h
  | statFail => exact fun h => FileJson.noConfusion h
  | releaseFail => exact fun h => FileJson.noConfusion h

/-- `create` preserves well-formedness, readability and the configured
index fields, under every fault. -/
theorem create_post (c : Coll) (item : Obj) (g t1 t2 : String) (fault : SaveFault)
    (h : WF c) (hr : Readable c) :
    WF (c.create item g t1 t2 fault).2 ∧ Readable (c.create item g t1 t2 fault).2 ∧
      (c.create item g t1 t2 fault).2.indexFields = c.indexFields := by
  unfold Coll.create
  rcases hl : c.load with ⟨r, c1⟩
  have hwf1 : WF c1 := by
    have := load_wf c h
    rwa [hl] at this
  have hr1 : Readable c1 := by
    have := readable_load c hr
    rwa [hl] at this
  have hif1 : c1.indexFields = c.indexFields := by
    have := load_snd_indexFields c
    rwa [hl] at this
  cases r with
  | error e =>
      simp only [andThen_error]
      exact ⟨hwf1, hr1, hif1⟩
  | ok data =>
      simp only [andThen_ok]
      rcases hs : c1.save (data ++ [mkCreated item g t1 t2]) fault with ⟨r2, c2⟩
      have hwf2 : WF c2 := by
        have := save_wf c1 (data ++ [mkCreated item g t1 t2]) fault hwf1
        rwa [hs] at this
      have hr2 : Readable c2 := by
        have := readable_save c1 (data ++ [mkCreated item g t1 t2]) fault hr1
        rwa [hs] at this
      have hif2 : c2.indexFields = c.indexFields := by
        have := save_snd_indexFields c1 (data ++ [mkCreated item g t1 t2]) fault
        rw [hs] at this
        rw [this, hif1]
      cases r2 with
      | error e =>
          simp only [saveThen_error]
          exact ⟨hwf2, hr2, hif2⟩
      | ok u =>
          simp only [saveThen_ok]
          exact ⟨hwf2, hr2, hif2⟩

/-- `update` preserves well-formedness, readability and the configured
index fields, under every fault. -/
theorem update_post (c : Coll) (id? : Option Val) (updates : Obj) (t : String)
    (fault : SaveFault) (h : WF c) (hr : Readable c) :
    WF (c.update id? updates t fault).2 ∧ Readable (c.update id? updates t fault).2 ∧
      (c.update id? updates t fault).2.indexFields = c.indexFields := by
  unfold Coll.update
  rcases hl : c.load with ⟨r, c1⟩
  have hwf1 : WF c1 := by
    have := load_wf c h
    rwa [hl] at this
  have hr1 : Readable c1 := by
    have := readable_load c hr
    rwa [hl] at this
  have hif1 : c1.indexFields = c.indexFields := by
    have := load_snd_indexFields c
    rwa [hl] at this
  cases r with
  | error e =>
      simp only [andThen_error]
      exact ⟨hwf1, hr1, hif1⟩
  | ok data =>
      simp only [andThen_ok]
      cases hidx : data.findIdx? (fun item => decide (item.get "id" = id?)) with
      | none => exact ⟨hwf1, hr1, hif1⟩
      | some i =>
          simp only [updateIdx_some]
          rcases hs : c1.save (data.set i (mkUpdated (data.getD i []) updates t)) fault
            with ⟨r2, c2⟩
          have hwf2 : WF c2 := by
            have := save_wf c1 (data.set i (mkUpdated (data.getD i []) updates t)) fault hwf1
            rwa [hs] at this
          have hr2 : Readable c2 := by
            have := readable_save c1 (data.set i (mkUpdated (data.getD i []) updates t))
              fault hr1
            rwa [hs] at this
          have hif2 : c2.indexFields = c.indexFields := by
            have := save_snd_indexFields c1
              (data.set i (mkUpdated (data.getD i []) updates t)) fault
            rw [hs] at this
            rw [this, hif1]
          cases r2 with
          | error e => exact ⟨hwf2, hr2, hif2⟩
          | ok u => exact ⟨hwf2, hr2, hif2⟩

/-- `delete` preserves well-formedness, readability and the configured
index fields, under every fault. -/
theorem delete_post (c : Coll) (id? : Option Val) (fault : SaveFault)
    (h : WF c) (hr : Readable c) :
    WF (c.delete id? fault).2 ∧ Readable (c.delete id? fault).2 ∧
      (c.delete id? fault).2.indexFields = c.indexFields := by
  unfold Coll.delete
  rcases hl : c.load with ⟨r, c1⟩
  have hwf1 : WF c1 := by
    have := load_wf c h
    rwa [hl] at this
  have hr1 : Readable c1 := by
    have := readable_load c hr
    rwa [hl] at this
  have hif1 : c1.indexFields = c.indexFields := by
    have := load_snd_indexFields c
    rwa [hl] at this
  cases r with
  | error e =>
      simp only [andThen_error]
      exact ⟨hwf1, hr1, hif1⟩
  | ok data =>
      simp only [andThen_ok]
      cases hidx : data.findIdx? (fun item => decide (item.get "id" = id?)) with
      | none => exact ⟨hwf1, hr1, hif1⟩
      | some i =>
          simp only [deleteIdx_some]
          rcases hs : c1.save (data.eraseIdx i) fault with ⟨r2, c2⟩
          have hwf2 : WF c2 := by
            have := save_wf c1 (data.eraseIdx i) fault hwf1
            rwa [hs] at this
          have hr2 : Readable c2 := by
            have := readable_save c1 (data.eraseIdx i) fault hr1
            rwa [hs] at this
          have hif2 : c2.indexFields = c.indexFields := by
            have := save_snd_indexFields c1 (data.eraseIdx i) fault
            rw [hs] at this
            rw [this, hif1]
          cases r2 with
          | error e => exact ⟨hwf2, hr2, hif2⟩
          | ok u => exact ⟨hwf2, hr2, hif2⟩

/-- `upsert` preserves well-formedness, readability and the configured
index fields, under every fault. -/
theorem upsert_post (c : Coll) (pred : Obj → Bool) (item : Obj)
    (g t1 t2 t : String) (fault : SaveFault) (h : WF c) (hr : Readable c) :
    WF (c.upsert pred item g t1 t2 t fault).2 ∧
      Readable (c.upsert pred item g t1 t2 t fault).2 ∧
      (c.upsert pred item g t1 t2 t fault).2.indexFields = c.indexFields := by
  unfold Coll.upsert
  rcases hl : c.load with ⟨r, c1⟩
  have hwf1 : WF c1 := by
    have := load_wf c h
    rwa [hl] at this
  have hr1 : Readable c1 := by
    have := readable_load c hr
    rwa [hl] at this
  have hif1 : c1.indexFields = c.indexFields := by
    have := load_snd_indexFields c
    rwa [hl] at this
  cases r with
  | error e =>
      simp only [andThen_error]
      exact ⟨hwf1, hr1, hif1⟩
  | ok data =>
      simp only [andThen_ok]
      cases hfind : data.find? pred with
      | some existing =>
          obtain ⟨hwf2, hr2, hif2⟩ :=
            update_post c1 (existing.get "id") item t fault hwf1 hr1
          exact ⟨hwf2, hr2, hif1 ▸ hif2⟩
      | none =>
          obtain ⟨hwf2, hr2, hif2⟩ := create_post c1 item g t1 t2 fault hwf1 hr1
          rcases hc : c1.create item g t1 t2 fault with ⟨r2, c2⟩
          rw [hc] at hwf2 hr2 hif2
          cases r2 with
          | error e =>
              simp only [mapOk_error]
              exact ⟨hwf2, hr2, hif1 ▸ hif2⟩
          | ok u =>
              simp only [mapOk_ok]
              exact ⟨hwf2, hr2, hif1 ▸ hif2⟩

/-- One mutating call on a collection, with its oracle inputs (generated
id, clock reads). -/
inductive Op where
  | createOp (item : Obj) (genId t1 t2 : String)
  | updateOp (id? : Option Val) (fields : Obj) (t : String)
  | deleteOp (id? : Option Val)
  | upsertOp (pred : Obj → Bool) (item : Obj) (genId t1 t2 t : String)

/-- Run one fault-free mutating call, keeping the state. -/
def applyOp (c : Coll) : Op → Coll
  | Op.createOp item g t1 t2 => (c.create item g t1 t2 SaveFault.ok).2
  | Op.updateOp id? fields t => (c.update id? fields t SaveFault.ok).2
  | Op.deleteOp id? => (c.delete id? SaveFault.ok).2
  | Op.upsertOp pred item g t1 t2 t => (c.upsert pred item g t1 t2 t SaveFault.ok).2

/-- Run a sequence of fault-free mutating calls. -/
def applyOps (c : Coll) (ops : List Op) : Coll :=
  ops.foldl applyOp c

theorem applyOp_post (c : Coll) (op : Op) (h : WF c) (hr : Readable c) :
    WF (applyOp c op) ∧ Readable (applyOp c op) ∧
      (applyOp c op).indexFields = c.indexFields := by
  cases op with
  | createOp item g t1 t2 => exact create_post c item g t1 t2 SaveFault.ok h hr
  | updateOp id? fields t => exact update_post c id? fields t SaveFault.ok h hr
  | deleteOp id? => exact delete_post c id? SaveFault.ok h hr
  | upsertOp pred item g t1 t2 t => exact upsert_post c pred item g t1 t2 t SaveFault.ok h hr

theorem applyOps_post (c : Coll) (ops : List Op) (h : WF c) (hr : Readable c) :
    WF (applyOps c ops) ∧ Readable (applyOps c ops) ∧
      (applyOps c ops).indexFields = c.indexFields := by
  induction ops generalizing c with
  | nil => exact ⟨h, hr, rfl⟩
  | cons op rest ih =>
      obtain ⟨h1, hr1, hf1⟩ := applyOp_post c op h hr
      obtain ⟨h2, hr2, hf2⟩ := ih (applyOp c op) h1 hr1
      exact ⟨h2, hr2, hf2.trans hf1⟩

/-- Specification of `findIndex`: the returned index is in range, the
record there satisfies the predicate, and no earlier record does. -/
theorem findIdx?_spec {α : Type} (p : α → Bool) (l : List α) (i : Nat) (d : α)
    (h : l.findIdx? p = some i) :
    i < l.length ∧ p (l.getD i d) = true ∧ ∀ j, j < i → p (l.getD j d) = false := by
  obtain ⟨hlen, hp, hnot⟩ := List.findIdx?_eq_some_iff_getElem.mp h
  refine ⟨hlen, ?_, ?_⟩
  · rw [List.getD_eq_getElem l d hlen]
    exact hp
  · intro j hj
    rw [List.getD_eq_getElem l d (Nat.lt_trans hj hlen)]
    simpa using hnot j hj

/-- `findIndex` misses exactly when no record satisfies the predicate. -/
theorem findIdx?_eq_none_of_all {α : Type} (p : α → Bool) (l : List α)
    (h : ∀ x ∈ l, p x = false) : l.findIdx? p = none :=
  List.findIdx?_eq_none_iff.mpr h

/-- State of the `Mutex` class (lines 19-44): the `locked` flag and the
queue of pending `resolve` callbacks (identified by waiter ids), plus
ghost history: the current holders (operations whose `acquire` promise has
resolved and that have not yet called `release`), the order in which
acquires were granted, and the order in which `acquire` was called. -/
structure MutexState where
  locked : Bool
  queue : List Nat
  holders : List Nat
  grants : List Nat
  arrivals : List Nat
  deriving DecidableEq, Repr

/-- An `acquire(w)` call by waiter `w`, or a `release()` call by the
current holder. -/
inductive MutexEvent where
  | acquire (w : Nat)
  | release
  deriving DecidableEq, Repr

/-- One step of the `Mutex`:
`acquire` (lines 25-34) resolves immediately when unlocked, else queues;
`release` (lines 36-43) hands the lock to the queue head (shift + call,
`locked` stays true), or unlocks when the queue is empty. -/
def mutexStep (s : MutexState) : MutexEvent → MutexState
  | MutexEvent.acquire w =>
      if s.locked then
        { s with queue := s.queue ++ [w], arrivals := s.arrivals ++ [w] }
      else
        { s with locked := true, holders := s.holders ++ [w],
                 grants := s.grants ++ [w], arrivals := s.arrivals ++ [w] }
  | MutexEvent.release =>
      match s.queue with
      | n :: rest =>
          { s with queue := rest, holders := s.holders.tail ++ [n],
                   grants := s.grants ++ [n] }
      | [] => { s with locked := false, holders := s.holders.tail }

/-- The constructor state (lines 20-23). -/
def mutexInit : MutexState :=
  { locked := false, queue := [], holders := [], grants := [], arrivals := [] }

/-- Run a sequence of acquire/release events from the fresh mutex. -/
def mutexRun (es : List MutexEvent) : MutexState :=
  es.foldl mutexStep mutexInit

/-- The mutex invariant: unlocked means nobody queued and nobody holding;
locked means exactly one holder; and the grant history followed by the
queue is exactly the arrival history (waiters are granted in arrival
order, pending waiters still in arrival order). -/
def MutexInv (s : MutexState) : Prop :=
  (s.locked = false → s.queue = [] ∧ s.holders = []) ∧
  (s.locked = true → s.holders.length = 1) ∧
  s.grants ++ s.queue = s.arrivals

theorem mutexStep_inv (s : MutexState) (e : MutexEvent) (h : MutexInv s) :
    MutexInv (mutexStep s e) := by
  obtain ⟨hunlocked, hlocked, hfifo⟩ := h
  cases e with
  | acquire w =>
      by_cases hl : s.locked
      · refine ⟨?_, ?_, ?_⟩
        · intro hfalse
          simp only [mutexStep, if_pos hl] at hfalse
          exact absurd hfalse (by simp [hl])
        · intro _
          simp only [mutexStep, if_pos hl]
          exact hlocked hl
        · simp only [mutexStep, if_pos hl]
          rw [← List.append_assoc, hfifo]
      · obtain ⟨hq, hh⟩ := hunlocked (Bool.not_eq_true s.locked ▸ by simpa using hl)
        refine ⟨?_, ?_, ?_⟩
        · intro hfalse
          simp only [mutexStep, if_neg hl] at hfalse
          cases hfalse
        · intro _
          simp only [mutexStep, if_neg hl, hh]
          rfl
        · simp only [mutexStep, if_neg hl]
          rw [hq, List.append_nil] at hfifo
          simp [hq, hfifo]
  | release =>
      cases hq : s.queue with
      | nil =>
          refine ⟨?_, ?_, ?_⟩
          · intro _
            refine ⟨by simp [mutexStep, hq], ?_⟩
            by_cases hl : s.locked
            · have hone := hlocked hl
              cases hh : s.holders with
              | nil => simp [mutexStep, hq, hh]
              | cons a hrest =>
                  rw [hh] at hone
                  simp at hone
                  simp [mutexStep, hq, hh, hone]
            · simp [mutexStep, hq, (hunlocked (by simpa using hl)).2]
          · intro hfalse
            simp only [mutexStep, hq] at hfalse
            cases hfalse
          · simp only [mutexStep, hq]
            rw [hq] at hfifo
            exact hfifo
      | cons n rest =>
          have hl : s.locked = true := by
            by_cases hl : s.locked
            · exact hl
            · have := (hunlocked (by simpa using hl)).1
              rw [hq] at this
              cases this
          have hone := hlocked hl
          refine ⟨?_, ?_, ?_⟩
          · intro hfalse
            simp only [mutexStep, hq] at hfalse
            rw [hl] at hfalse
            cases hfalse
          · intro _
            simp only [mutexStep, hq]
            cases hh : s.holders with
            | nil =>
                rw [hh] at hone
                cases hone
            | cons a hrest =>
                rw [hh] at hone
                simp at hone
                simp [hone]
          · simp only [mutexStep, hq]
            rw [← hfifo, hq]
            simp
theorem mutexFold_inv (es : List MutexEvent) (s : MutexState) (h : MutexInv s) :
    MutexInv (es.foldl mutexStep s) := by
  induction es generalizing s with
  | nil => exact h
  | cons e rest ih => exact ih (mutexStep s e) (mutexStep_inv s e h)

theorem mutexRun_inv (es : List MutexEvent) : MutexInv (mutexRun es) :=
  mutexFold_inv es mutexInit (by simp [MutexInv, mutexInit])

/-- A sample stored record. -/
def recW : Obj :=
  [("id", Val.vstr "G1"), ("email", Val.vstr "a@x.com"),
   ("created_at", Val.vstr "T1"), ("updated_at", Val.vstr "T1")]

/-- A sample one-record array. -/
def dataW : List Obj := [recW]

/-- A sample synchronized collection state holding `dataW`, indexed on
`email` (as the users collection is). -/
def collW : Coll :=
  { indexFields := ["email"]
    file := some ⟨FileJson.arr dataW, 3⟩
    cache := some dataW
    lastModified := some 3
    indexes := buildIndexes ["email"] dataW
    clock := 4 }

/-- Claim C8: the in-process mutex provides mutual exclusion and strict
FIFO ordering — after any sequence of acquire and release events there is
never more than one holder, and the granted sequence followed by the
pending queue is exactly the sequence of acquire calls in arrival order,
so the lock is granted in exactly the order acquires were made. -/
theorem mutex_mutual_exclusion_fifo (es : List MutexEvent) :
    (mutexRun es).holders.length ≤ 1 ∧
      (mutexRun es).grants ++ (mutexRun es).queue = (mutexRun es).arrivals := by
  obtain ⟨hu, hl, hf⟩ := mutexRun_inv es
  refine ⟨?_, hf⟩
  cases hlk : (mutexRun es).locked with
  | false =>
      rw [(hu hlk).2]
      exact Nat.zero_le 1
  | true => exact Nat.le_of_eq (hl hlk)

/-- Claim C5: in every well-formed state (the states reachable when this
process is the sole writer), `load` returns exactly what reading and
parsing the durable file would return; in particular on the cached fast
path (cache populated and recorded modification time equal to the file
modification time) the cached snapshot is returned with no state change
and equals the parsed file content. -/
theorem load_cache_refines_disk (c : Coll) (h : WF c) :
    (c.load).1 = loadSpec c ∧
      (∀ l fd, c.cache = some l → c.file = some fd → c.lastModified = some fd.mtime →
        c.load = (Except.ok l, c) ∧ loadSpec c = Except.ok l) := by
  refine ⟨load_fst_eq_loadSpec c h, ?_⟩
  intro l fd hc hf hm
  obtain ⟨-, -, h3⟩ := (wf_iff c).mp h
  obtain ⟨hcont, -⟩ := h3 l fd hc hf hm
  have hsync : Synced c l := by
    unfold Synced
    rw [hf]
    exact ⟨hc, hcont, hm⟩
  refine ⟨load_of_synced c l hsync, ?_⟩
  unfold loadSpec
  rw [hf]
  show (match fd.content with
        | FileJson.corrupt => Except.error SErr.parseError
        | FileJson.arr l2 => Except.ok l2) = Except.ok l
  rw [hcont]

/-- Witness for C5 at a concrete synchronized state. -/
theorem load_cache_refines_disk_witness :
    WF collW ∧
      ((collW.load).1 = loadSpec collW ∧
        (∀ l fd, collW.cache = some l → collW.file = some fd →
          collW.lastModified = some fd.mtime →
          collW.load = (Except.ok l, collW) ∧ loadSpec collW = Except.ok l)) :=
  ⟨by decide, load_cache_refines_disk collW (by decide)⟩

/-- Counterexample to claim C1 as stated: an error raised inside `save`
after the atomic rename — here the `fs.stat` of the freshly renamed file
failing — propagates to the caller while the canonical file has already
been replaced and the cache already overwritten, so not every failing
`save` leaves file and cache as they were. -/
theorem save_late_failure_changes_state :
    ((collW.save [] SaveFault.statFail).1 = Except.error SErr.ioError) ∧
      ((collW.save [] SaveFault.statFail).2.file ≠ collW.file) ∧
      ((collW.save [] SaveFault.statFail).2.cache ≠ collW.cache) := by
  decide

/-- Claim C1 (amended): a `save` failure at or before the atomic rename —
the temp-file write failing or the rename failing — propagates the error
and leaves the entire collection state (canonical file, cache, recorded
modification time, indexes) exactly as it was; on the fault-free path the
file atomically becomes the new array and cache and indexes reflect it,
and an advisory-lock failure is non-fatal and behaves like the fault-free
path.  (Errors raised after the rename — the stat of the renamed file or
the lock release — still propagate, but with the file already replaced;
see the counterexample.) -/
theorem save_atomicity_amended (c : Coll) (data : List Obj) :
    (c.save data SaveFault.tmpWriteFail = (Except.error SErr.ioError, c)) ∧
      (c.save data SaveFault.renameFail = (Except.error SErr.ioError, c)) ∧
      ((c.save data SaveFault.ok).1 = Except.ok () ∧
        (c.save data SaveFault.ok).2.file = some ⟨FileJson.arr data, c.clock⟩ ∧
        (c.save data SaveFault.ok).2.cache = some data ∧
        (c.save data SaveFault.ok).2.lastModified = some c.clock ∧
        (c.save data SaveFault.ok).2.indexes = buildIndexes c.indexFields data) ∧
      ((c.save data SaveFault.lockFail).1 = Except.ok () ∧
        (c.save data SaveFault.lockFail).2 = (c.save data SaveFault.ok).2) :=
  ⟨rfl, rfl, ⟨rfl, rfl, rfl, rfl, rfl⟩, rfl, rfl⟩

/-- Fields `updW` passed to the sample update: they try to overwrite both
`id` and `created_at`. -/
def updW : Obj :=
  [("id", Val.vstr "X"), ("created_at", Val.vstr "X"), ("email", Val.vstr "b@y.com")]

/-- Claim C2: when the id is present, `update(id, fields)` returns a
record keeping the stored `id` and `created_at` (whatever the caller
passed), taking every other field from the caller fields merged over the
old record, with `updated_at` stamped to the time of the call; the
persisted array holds this record in place of the old one. -/
theorem update_preserves_id_created (c : Coll) (id : Val) (updates : Obj) (t : String)
    (data : List Obj) (c1 : Coll) (i : Nat)
    (hl : c.load = (Except.ok data, c1))
    (hi : data.findIdx? (fun item => decide (item.get "id" = some id)) = some i) :
    ∃ r, (c.update (some id) updates t SaveFault.ok).1 = Except.ok (some r) ∧
      r.get "id" = (data.getD i []).get "id" ∧
      r.get "id" = some id ∧
      r.get "created_at" = (data.getD i []).get "created_at" ∧
      r.get "updated_at" = some (Val.vstr t) ∧
      (∀ k, k ≠ "id" → k ≠ "created_at" → k ≠ "updated_at" →
        r.get k = ((data.getD i []).merge updates).get k) ∧
      (c.update (some id) updates t SaveFault.ok).2.file
        = some ⟨FileJson.arr (data.set i r), c1.clock⟩ := by
  obtain ⟨-, hsat, -⟩ := findIdx?_spec _ data i [] hi
  have hid_old : (data.getD i []).get "id" = some id := of_decide_eq_true hsat
  refine ⟨mkUpdated (data.getD i []) updates t, ?_, ?_, ?_, ?_, ?_, ?_, ?_⟩
  · unfold Coll.update
    rw [hl]
    simp only [andThen_ok]
    rw [hi]
    simp only [updateIdx_some]
    rw [save_eq_ok]
    simp only [saveThen_ok]
  · unfold mkUpdated
    rw [Obj.get_set_ne _ "updated_at" "id" _ (by decide),
      Obj.get_setOpt_ne _ "created_at" "id" _ (by decide),
      Obj.get_setOpt_self]
  · unfold mkUpdated
    rw [Obj.get_set_ne _ "updated_at" "id" _ (by decide),
      Obj.get_setOpt_ne _ "created_at" "id" _ (by decide),
      Obj.get_setOpt_self]
    exact hid_old
  · unfold mkUpdated
    rw [Obj.get_set_ne _ "updated_at" "created_at" _ (by decide),
      Obj.get_setOpt_self]
  · unfold mkUpdated
    rw [Obj.get_set_self]
  · intro k hk1 hk2 hk3
    unfold mkUpdated
    rw [Obj.get_set_ne _ "updated_at" k _ hk3,
      Obj.get_setOpt_ne _ "created_at" k _ hk2,
      Obj.get_setOpt_ne _ "id" k _ hk1]
  · unfold Coll.update
    rw [hl]
    simp only [andThen_ok]
    rw [hi]
    simp only [updateIdx_some]
    rw [save_eq_ok]
    simp only [saveThen_ok]

/-- Witness for C2 at a concrete collection, with caller fields that try
to overwrite `id` and `created_at`. -/
theorem update_preserves_id_created_witness :
    collW.load = (Except.ok dataW, collW) ∧
      dataW.findIdx? (fun item => decide (item.get "id" = some (Val.vstr "G1"))) = some 0 ∧
      (∃ r, (collW.update (some (Val.vstr "G1")) updW "T9" SaveFault.ok).1
          = Except.ok (some r) ∧
        r.get "id" = (dataW.getD 0 []).get "id" ∧
        r.get "id" = some (Val.vstr "G1") ∧
        r.get "created_at" = (dataW.getD 0 []).get "created_at" ∧
        r.get "updated_at" = some (Val.vstr "T9") ∧
        (∀ k, k ≠ "id" → k ≠ "created_at" → k ≠ "updated_at" →
          r.get k = ((dataW.getD 0 []).merge updW).get k) ∧
        (collW.update (some (Val.vstr "G1")) updW "T9" SaveFault.ok).2.file
          = some ⟨FileJson.arr (dataW.set 0 r), collW.clock⟩) :=
  ⟨rfl, by decide,
    update_preserves_id_created collW (Val.vstr "G1") updW "T9" dataW collW 0 rfl (by decide)⟩

/-- Counterexample to claim C4 as stated: `create` spreads the caller
fields AFTER the generated id (`{ id: nanoid(12), ...item, ... }`), so a
caller-supplied `id` key overrides the engine-generated identifier — the
returned id is `"evil"`, not the generated `"A1B2C3D4E5F6"`. -/
theorem create_caller_id_overrides :
    ((collW.create [("id", Val.vstr "evil")] "A1B2C3D4E5F6" "T1" "T1"
          SaveFault.ok).1.map (fun r => r.get "id")
        = Except.ok (some (Val.vstr "evil"))) ∧
      ((collW.create [("id", Val.vstr "evil")] "A1B2C3D4E5F6" "T1" "T1"
          SaveFault.ok).1.map (fun r => r.get "id")
        ≠ Except.ok (some (Val.vstr "A1B2C3D4E5F6"))) := by
  decide

/-- Claim C4 (amended): when the caller fields do not contain an `id`
key, the created record carries exactly the freshly generated identifier
and is appended to the persisted array; it is unique in the collection
whenever the generated identifier differs from every stored id (which the
engine relies on probabilistically and does not check).  A caller-supplied
`id` overrides the generated one (see the counterexample). -/
theorem create_id_generated_when_absent (c : Coll) (item : Obj) (genId t1 t2 : String)
    (data : List Obj) (c1 : Coll)
    (hl : c.load = (Except.ok data, c1))
    (hid : item.get "id" = none) :
    ∃ r, (c.create item genId t1 t2 SaveFault.ok).1 = Except.ok r ∧
      r.get "id" = some (Val.vstr genId) ∧
      (c.create item genId t1 t2 SaveFault.ok).2.file
        = some ⟨FileJson.arr (data ++ [r]), c1.clock⟩ ∧
      ((∀ r0 ∈ data, r0.get "id" ≠ some (Val.vstr genId)) →
        ((data ++ [r]).filter
            (fun r0 => decide (r0.get "id" = some (Val.vstr genId)))).length = 1) := by
  have hgen : (mkCreated item genId t1 t2).get "id" = some (Val.vstr genId) := by
    unfold mkCreated
    rw [Obj.get_set_ne _ "updated_at" "id" _ (by decide),
      Obj.get_set_ne _ "created_at" "id" _ (by decide),
      Obj.get_merge_of_not_mem _ item "id" hid]
    rfl
  refine ⟨mkCreated item genId t1 t2, ?_, hgen, ?_, ?_⟩
  · unfold Coll.create
    rw [hl]
    simp only [andThen_ok]
    rw [save_eq_ok]
    simp only [saveThen_ok]
  · unfold Coll.create
    rw [hl]
    simp only [andThen_ok]
    rw [save_eq_ok]
    simp only [saveThen_ok]
  · intro hfresh
    rw [List.filter_append]
    have hnil : data.filter (fun r0 => decide (r0.get "id" = some (Val.vstr genId))) = [] := by
      rw [List.filter_eq_nil_iff]
      intro a ha
      simp only [decide_eq_true_iff]
      exact hfresh a ha
    rw [hnil]
    simp [List.filter, hgen]

/-- Witness for amended C4: creating a record without an `id` field in a
concrete collection yields the generated id, appended and unique. -/
theorem create_id_generated_when_absent_witness :
    collW.load = (Except.ok dataW, collW) ∧
      Obj.get [("email", Val.vstr "c@z.com")] "id" = none ∧
      (∃ r, (collW.create [("email", Val.vstr "c@z.com")] "N1N2N3N4N5N6" "T4" "T4"
            SaveFault.ok).1 = Except.ok r ∧
        r.get "id" = some (Val.vstr "N1N2N3N4N5N6") ∧
        (collW.create [("email", Val.vstr "c@z.com")] "N1N2N3N4N5N6" "T4" "T4"
            SaveFault.ok).2.file
          = some ⟨FileJson.arr (dataW ++ [r]), collW.clock⟩ ∧
        ((∀ r0 ∈ dataW, r0.get "id" ≠ some (Val.vstr "N1N2N3N4N5N6")) →
          ((dataW ++ [r]).filter
              (fun r0 => decide (r0.get "id" = some (Val.vstr "N1N2N3N4N5N6")))).length
            = 1)) :=
  ⟨rfl, by decide,
    create_id_generated_when_absent collW [("email", Val.vstr "c@z.com")]
      "N1N2N3N4N5N6" "T4" "T4" dataW collW rfl (by decide)⟩

/-- Counterexample to claim C7 as stated: `created_at` and `updated_at`
come from two separate `new Date().toISOString()` calls (lines 210-211),
so when the clock ticks between the two reads the created record has
`created_at` different from `updated_at`. -/
theorem create_timestamps_can_differ :
    ((collW.create [("email", Val.vstr "a@x.com")] "G9QQQQQQQQQQ"
          "2026-01-01T00:00:00.999Z" "2026-01-01T00:00:01.000Z" SaveFault.ok).1.map
        (fun r => decide (r.get "created_at" = r.get "updated_at")))
      = Except.ok false := by
  decide

/-- Claim C7 (amended): the created record has `created_at` stamped from
the first clock read of the call and `updated_at` from the second — the
caller can override neither, whatever fields it passes — and the two are
equal whenever both reads fall in the same millisecond (same ISO string),
which is the typical case. -/
theorem create_timestamps_from_clock_reads (c : Coll) (item : Obj)
    (genId t1 t2 : String) (data : List Obj) (c1 : Coll)
    (hl : c.load = (Except.ok data, c1)) :
    ∃ r, (c.create item genId t1 t2 SaveFault.ok).1 = Except.ok r ∧
      r.get "created_at" = some (Val.vstr t1) ∧
      r.get "updated_at" = some (Val.vstr t2) ∧
      (t1 = t2 → r.get "created_at" = r.get "updated_at") := by
  have hca : (mkCreated item genId t1 t2).get "created_at" = some (Val.vstr t1) := by
    unfold mkCreated
    rw [Obj.get_set_ne _ "updated_at" "created_at" _ (by decide), Obj.get_set_self]
  have hua : (mkCreated item genId t1 t2).get "updated_at" = some (Val.vstr t2) := by
    unfold mkCreated
    rw [Obj.get_set_self]
  refine ⟨mkCreated item genId t1 t2, ?_, hca, hua, ?_⟩
  · unfold Coll.create
    rw [hl]
    simp only [andThen_ok]
    rw [save_eq_ok]
    simp only [saveThen_ok]
  · intro he
    rw [hca, hua, he]

/-- Witness for amended C7: the caller passes both timestamp keys and
still cannot override them; with equal clock reads the two stamps are
equal. -/
theorem create_timestamps_from_clock_reads_witness :
    collW.load = (Except.ok dataW, collW) ∧
      (∃ r, (collW.create
            [("created_at", Val.vstr "HACK"), ("updated_at", Val.vstr "HACK")]
            "M1M2M3M4M5M6" "T5" "T5" SaveFault.ok).1 = Except.ok r ∧
        r.get "created_at" = some (Val.vstr "T5") ∧
        r.get "updated_at" = some (Val.vstr "T5") ∧
        ("T5" = "T5" → r.get "created_at" = r.get "updated_at")) :=
  ⟨rfl,
    create_timestamps_from_clock_reads collW
      [("created_at", Val.vstr "HACK"), ("updated_at", Val.vstr "HACK")]
      "M1M2M3M4M5M6" "T5" "T5" dataW collW rfl⟩

/-- Claim C6: for an id matching no record in a synchronized collection,
`findById` returns null, `update` returns null, and `delete` returns
false — in all three cases no error is raised (whatever fault would have
hit the never-reached save) and the entire state, file and cache
included, is exactly unchanged. -/
theorem missing_id_is_noop (c : Coll) (data : List Obj) (id : Val) (updates : Obj)
    (t : String) (fault : SaveFault)
    (hs : Synced c data)
    (hmiss : ∀ r ∈ data, r.get "id" ≠ some id) :
    c.findById (some id) = (Except.ok none, c) ∧
      c.update (some id) updates t fault = (Except.ok none, c) ∧
      c.delete (some id) fault = (Except.ok false, c) := by
  have hl := load_of_synced c data hs
  have hpr : ∀ x ∈ data, (fun item => decide (item.get "id" = some id)) x = false := by
    intro x hx
    simp only [decide_eq_false_iff_not]
    exact hmiss x hx
  have hnone : data.findIdx? (fun item => decide (item.get "id" = some id)) = none :=
    findIdx?_eq_none_of_all _ data hpr
  have hfind : data.find? (fun item => decide (item.get "id" = some id)) = none := by
    rw [List.find?_eq_none]
    intro x hx
    simp only [decide_eq_true_iff]
    exact hmiss x hx
  refine ⟨?_, ?_, ?_⟩
  · unfold Coll.findById
    rw [hl]
    simp only [andThen_ok]
    rw [hfind]
  · unfold Coll.update
    rw [hl]
    simp only [andThen_ok]
    rw [hnone]
    simp only [updateIdx_none]
  · unfold Coll.delete
    rw [hl]
    simp only [andThen_ok]
    rw [hnone]
    simp only [deleteIdx_none]

/-- Witness for C6 at a concrete collection and an id that matches
nothing. -/
theorem missing_id_is_noop_witness :
    Synced collW dataW ∧
      (∀ r ∈ dataW, r.get "id" ≠ some (Val.vstr "NOPE")) ∧
      (collW.findById (some (Val.vstr "NOPE")) = (Except.ok none, collW) ∧
        collW.update (some (Val.vstr "NOPE")) updW "T9" SaveFault.ok
          = (Except.ok none, collW) ∧
        collW.delete (some (Val.vstr "NOPE")) SaveFault.ok
          = (Except.ok false, collW)) :=
  ⟨by decide, by decide,
    missing_id_is_noop collW dataW (Val.vstr "NOPE") updW "T9" SaveFault.ok
      (by decide) (by decide)⟩

/-- A collection state whose canonical file is missing (deleted after
construction). -/
def collNoFile : Coll :=
  { indexFields := ["email"]
    file := none
    cache := none
    lastModified := none
    indexes := []
    clock := 0 }

/-- Claim C9: loading with the file absent raises no error, returns the
empty sequence, and sets the cache to the empty collection (rebuilding
empty indexes, everything else untouched); a corrupt file instead makes
`load` propagate the parse error with the state unchanged. -/
theorem load_absent_self_heals (c : Coll) (h : WF c) :
    (c.file = none →
      c.load = (Except.ok [],
        { c with cache := some [], indexes := buildIndexes c.indexFields [] })) ∧
      (∀ fd, c.file = some fd → fd.content = FileJson.corrupt →
        c.load = (Except.error SErr.parseError, c)) := by
  obtain ⟨-, -, h3⟩ := (wf_iff c).mp h
  rcases c with ⟨flds, file, cache, lm, idx, clk⟩
  constructor
  · intro hf
    cases hf
    rfl
  · intro fd hf hcont
    cases hf
    rcases fd with ⟨content, mtime⟩
    cases hcont
    cases cache with
    | none => rfl
    | some l =>
        by_cases hm : lm = some mtime
        · exfalso
          have := (h3 l ⟨FileJson.corrupt, mtime⟩ rfl rfl (by rw [hm])).1
          exact FileJson.noConfusion this
        · simp [Coll.load, Coll.loadDisk, hm]

/-- Witness for C9 at a concrete fileless collection state. -/
theorem load_absent_self_heals_witness :
    WF collNoFile ∧
      ((collNoFile.file = none →
        collNoFile.load = (Except.ok [],
          { collNoFile with cache := some [],
                            indexes := buildIndexes collNoFile.indexFields [] })) ∧
        (∀ fd, collNoFile.file = some fd → fd.content = FileJson.corrupt →
          collNoFile.load = (Except.error SErr.parseError, collNoFile))) :=
  ⟨by decide, load_absent_self_heals collNoFile (by decide)⟩

/-- Two records sharing the same id. -/
def recD1 : Obj := [("id", Val.vstr "DUP"), ("email", Val.vstr "x1@x.com")]

/-- Second record with the duplicated id. -/
def recD2 : Obj := [("id", Val.vstr "DUP"), ("email", Val.vstr "x2@x.com")]

/-- An array holding two records with the same id. -/
def dataD : List Obj := [recD1, recD2]

/-- A synchronized collection over `dataD`. -/
def collD : Coll :=
  { indexFields := ["email"]
    file := some ⟨FileJson.arr dataD, 7⟩
    cache := some dataD
    lastModified := some 7
    indexes := buildIndexes ["email"] dataD
    clock := 8 }

/-- Claim C10: `delete(id)` removes exactly one record — the first in
array order whose id matches — returns true, and persists the array
shortened by exactly one, even when several records share the id. -/
theorem delete_removes_first_match (c : Coll) (id : Val) (data : List Obj)
    (c1 : Coll) (i : Nat)
    (hl : c.load = (Except.ok data, c1))
    (hi : data.findIdx? (fun item => decide (item.get "id" = some id)) = some i) :
    (c.delete (some id) SaveFault.ok).1 = Except.ok true ∧
      (c.delete (some id) SaveFault.ok).2.file
        = some ⟨FileJson.arr (data.eraseIdx i), c1.clock⟩ ∧
      (data.eraseIdx i).length + 1 = data.length ∧
      (data.getD i []).get "id" = some id ∧
      (∀ j, j < i → (data.getD j []).get "id" ≠ some id) := by
  obtain ⟨hlen, hsat, hbefore⟩ := findIdx?_spec _ data i [] hi
  refine ⟨?_, ?_, ?_, of_decide_eq_true hsat, ?_⟩
  · unfold Coll.delete
    rw [hl]
    simp only [andThen_ok]
    rw [hi]
    simp only [deleteIdx_some]
    rw [save_eq_ok]
    simp only [saveThen_ok]
  · unfold Coll.delete
    rw [hl]
    simp only [andThen_ok]
    rw [hi]
    simp only [deleteIdx_some]
    rw [save_eq_ok]
    simp only [saveThen_ok]
  · rw [List.length_eraseIdx_of_lt hlen]
    omega
  · intro j hj
    exact of_decide_eq_false (hbefore j hj)

/-- Witness for C10 on a collection with two records sharing one id: the
first is removed, the array shrinks by exactly one. -/
theorem delete_removes_first_match_witness :
    collD.load = (Except.ok dataD, collD) ∧
      dataD.findIdx? (fun item => decide (item.get "id" = some (Val.vstr "DUP")))
        = some 0 ∧
      ((collD.delete (some (Val.vstr "DUP")) SaveFault.ok).1 = Except.ok true ∧
        (collD.delete (some (Val.vstr "DUP")) SaveFault.ok).2.file
          = some ⟨FileJson.arr (dataD.eraseIdx 0), collD.clock⟩ ∧
        (dataD.eraseIdx 0).length + 1 = dataD.length ∧
        (dataD.getD 0 []).get "id" = some (Val.vstr "DUP") ∧
        (∀ j, j < 0 → (dataD.getD j []).get "id" ≠ some (Val.vstr "DUP"))) :=
  ⟨rfl, by decide,
    delete_removes_first_match collD (Val.vstr "DUP") dataD collD 0 rfl (by decide)⟩

/-- Claim C3: after any sequence of fault-free create/update/delete/upsert
calls on a collection whose configured index fields are duplicate-free,
`findByIndex(f, v)` for an indexed field `f` returns exactly the records
of `findAll()` whose field `f` equals `v` (in array order), and for a
field not configured as an index it returns the empty sequence. -/
theorem findByIndex_matches_findAll (c : Coll) (ops : List Op) (f : String) (v : Val)
    (hwf : WF c) (hr : Readable c) (hnd : c.indexFields.Nodup) :
    ∃ all, ((applyOps c ops).findAll).1 = Except.ok all ∧
      (f ∈ c.indexFields →
        ((applyOps c ops).findByIndex f v).1
          = Except.ok (all.filter (fun r => decide (r.get f = some v)))) ∧
      (f ∉ c.indexFields →
        ((applyOps c ops).findByIndex f v).1 = Except.ok []) := by
  obtain ⟨hwf2, hr2, hfields⟩ := applyOps_post c ops hwf hr
  obtain ⟨all, hl⟩ := load_ok_of_readable (applyOps c ops) hwf2 hr2
  have hidx := load_ok_indexes (applyOps c ops) all ((applyOps c ops).load).2 hwf2 hl
  refine ⟨all, ?_, ?_, ?_⟩
  · unfold Coll.findAll
    rw [hl]
  · intro hf
    unfold Coll.findByIndex
    rw [hl]
    simp only [andThen_ok]
    rw [hidx, hfields,
      indexLookup_buildIndexes_mem c.indexFields all f v (hfields ▸ hnd) hf]
  · intro hf
    unfold Coll.findByIndex
    rw [hl]
    simp only [andThen_ok]
    rw [hidx, hfields, indexLookup_buildIndexes_not_mem c.indexFields all f v hf]

/-- Witness for C3: a fresh users-like collection, one create, queried on
the indexed `email` field and on the non-indexed `name` field. -/
theorem findByIndex_matches_findAll_witness :
    WF (Coll.initFresh ["email", "role"] 0) ∧
      Readable (Coll.initFresh ["email", "role"] 0) ∧
      (Coll.initFresh ["email", "role"] 0).indexFields.Nodup ∧
      (∃ all,
        ((applyOps (Coll.initFresh ["email", "role"] 0)
            [Op.createOp [("email", Val.vstr "a@x.com")] "W1W2W3W4W5W6" "T1" "T1"]).findAll).1
          = Except.ok all ∧
        ("email" ∈ (Coll.initFresh ["email", "role"] 0).indexFields →
          ((applyOps (Coll.initFresh ["email", "role"] 0)
              [Op.createOp [("email", Val.vstr "a@x.com")] "W1W2W3W4W5W6" "T1" "T1"]).findByIndex
              "email" (Val.vstr "a@x.com")).1
            = Except.ok (all.filter
                (fun r => decide (r.get "email" = some (Val.vstr "a@x.com"))))) ∧
        ("email" ∉ (Coll.initFresh ["email", "role"] 0).indexFields →
          ((applyOps (Coll.initFresh ["email", "role"] 0)
              [Op.createOp [("email", Val.vstr "a@x.com")] "W1W2W3W4W5W6" "T1" "T1"]).findByIndex
              "email" (Val.vstr "a@x.com")).1
            = Except.ok [])) :=
  ⟨by decide, by decide, by decide,
    findByIndex_matches_findAll (Coll.initFresh ["email", "role"] 0)
      [Op.createOp [("email", Val.vstr "a@x.com")] "W1W2W3W4W5W6" "T1" "T1"]
      "email" (Val.vstr "a@x.com") (by decide) (by decide) (by decide)⟩
